import Mathlib

/-!
# Verification of the `mei` archive codec (src/lib.rs)

Shallow embedding of the streaming archive encoder/decoder from `src/lib.rs`.

Modelling conventions:

* A byte is a `Nat` (wire bytes are always `< 256`; truncation `% 256` /
  `% 2^16` / `% 2^32` appears exactly where a Rust integer cast or a
  fixed-width `to_be_bytes` forces it).
* A byte **sink** is a `List Nat`; every write function returns the bytes it
  emitted (in order), paired with its `Except` result when it can fail.
  `flush` on a byte-list sink is a no-op and is not modelled.
* A byte **source** is a `List (Option Nat)`: `some b` is a byte, `none` is an
  injected I/O fault at that position (used to model non-EOF read errors).
  `read_exact` on a source that runs out of elements fails with the
  `UnexpectedEof` kind, exactly like Rust's `Read::read_exact`.
* The AES-256-GCM cipher and the scrypt KDF are external crates; they are
  modelled as explicit function parameters (`Cipher`, `kdf`).  Theorems state
  the properties of the library calls they rely on as hypotheses
  (e.g. decrypt-of-encrypt round-trips, ciphertext length = plaintext + 16).
  `Aead::encrypt` never fails for correctly sized nonces, so `Cipher.encrypt`
  is total and the unreachable `Error::EncryptionFailed` branch is dropped.
* Random nonce draws (`thread_rng().gen()` inside `write_encrypt_chunk`) are
  modelled by a nonce supply `rng : Nat → List Nat` and a draw counter that
  advances exactly when the Rust code draws.
* The brotli compressor wrapping the caller's source in `write_file` is
  external; its observable behaviour inside the encode loop is the sequence
  of `read` results it returns, modelled as `CompStream`: the successive
  `Ok(n)` results with `n > 0` (the compressed chunks) followed by the event
  that ends the loop (`Ok(0)`, `Err(UnexpectedEof)`, or another error).
-/

namespace Mei

abbrev Byte := Nat
abbrev Bytes := List Nat

/-- Models `std::io::ErrorKind`, collapsed to the two classes `src/lib.rs`
distinguishes: `UnexpectedEof` versus every other kind. -/
inductive IoKind
  | unexpectedEof
  | otherErr
  deriving DecidableEq, Repr

/-- Models `enum Error` from src/lib.rs. -/
inductive Error
  | invalidHead
  | invalidVersion
  | invalidEncryptMethod
  | invalidScryptParams
  | encryptionFailed
  | decryptionFailed
  | fileType (b : Byte)
  | filePath
  | passwordRequired
  | noPasswordRequired
  | utf8
  | chunkTooLong
  | ioErr (k : IoKind)
  deriving DecidableEq, Repr

/-- Models `enum FileType` from src/lib.rs. -/
inductive FileType
  | file
  | directory
  deriving DecidableEq, Repr

/-- Models `FileType::parse`: `1` is a file, `0` a directory, anything else an
`Error::FileType(byte)`. -/
def FileType.parse (b : Byte) : Except Error FileType :=
  if b = 1 then .ok .file
  else if b = 0 then .ok .directory
  else .error (.fileType b)

/-- Models `FileType::write`: the one-byte type tag. -/
def FileType.writeTag : FileType → Bytes
  | .directory => [0]
  | .file => [1]

/-- A byte source with injectable I/O faults (`none`). -/
abbrev Src := List (Option Byte)

/-- Lift a plain byte string to a fault-free source. -/
def ofBytes (b : Bytes) : Src := b.map some

/-- Models `Read::read_exact` into an `n`-byte buffer: consumes exactly `n` bytes,
failing with `UnexpectedEof` if the source ends first and with another kind
if it hits an injected fault. -/
def readExact : Nat → Src → Except IoKind (Bytes × Src)
  | 0, src => .ok ([], src)
  | _ + 1, [] => .error .unexpectedEof
  | _ + 1, none :: _ => .error .otherErr
  | n + 1, some b :: rest =>
    match readExact n rest with
    | .ok (bs, r) => .ok (b :: bs, r)
    | .error e => .error e

/-- Models `read_exact` into a 1-byte buffer, returning the byte itself. -/
def readByte : Src → Except IoKind (Byte × Src)
  | [] => .error .unexpectedEof
  | none :: _ => .error .otherErr
  | some b :: rest => .ok (b, rest)

/-- Models `const HEAD: [u8; 3] = *b"mei";` -/
def HEAD : Bytes := [0x6D, 0x65, 0x69]

/-- Models `fn read_head`. -/
def read_head (src : Src) : Except Error Src :=
  match readExact 3 src with
  | .error k => .error (.ioErr k)
  | .ok (buf, rest) => if buf = HEAD then .ok rest else .error .invalidHead

/-- Models `fn write_head`. -/
def write_head : Bytes := HEAD

/-- Models `const VERSION: [u8; 1] = [1];` -/
def VERSION : Bytes := [1]

/-- Models `fn read_version`. -/
def read_version (src : Src) : Except Error Src :=
  match readExact 1 src with
  | .error k => .error (.ioErr k)
  | .ok (buf, rest) => if buf = VERSION then .ok rest else .error .invalidVersion

/-- Models `fn write_version`. -/
def write_version : Bytes := VERSION

/-- Models `u16::to_be_bytes` after the `as u16` cast in `write_chunk`. -/
def toBe16 (v : Nat) : Bytes := [v % 65536 / 256, v % 256]

/-- Models `u16::from_be_bytes` on the 2-byte buffer read by `read_chunk`. -/
def u16OfBe (l : Bytes) : Nat :=
  match l with
  | [hi, lo] => hi * 256 + lo
  | _ => 0

/-- Models `u32::to_be_bytes` (the moduli are `2^32`, `2^24`, `2^16`, `2^8`). -/
def toBe32 (v : Nat) : Bytes :=
  [v % 4294967296 / 16777216, v % 16777216 / 65536, v % 65536 / 256, v % 256]

/-- Models `u32::from_be_bytes`. -/
def u32OfBe (l : Bytes) : Nat :=
  match l with
  | [a, b, c, d] => ((a * 256 + b) * 256 + c) * 256 + d
  | _ => 0

/-- Models `u8::from_be_bytes` on a 1-byte buffer. -/
def u8OfBe (l : Bytes) : Nat :=
  match l with
  | [a] => a
  | _ => 0

/-- Models `fn read_chunk`: a 2-byte big-endian length followed by that many bytes. -/
def read_chunk (src : Src) : Except IoKind (Bytes × Src) :=
  match readExact 2 src with
  | .error k => .error k
  | .ok (len, rest) => readExact (u16OfBe len) rest

/-- Models `fn write_chunk`: fails with `ChunkTooLong` above 65535 bytes, otherwise
emits the 2-byte big-endian length and the bytes. -/
def write_chunk (buf : Bytes) : Except Error Bytes :=
  if buf.length > 65535 then .error .chunkTooLong
  else .ok (toBe16 buf.length ++ buf)

/-- A UTF-8 continuation byte (`0x80..=0xBF`). -/
def isCont (b : Byte) : Bool := 128 ≤ b && b ≤ 191

/-- Strict UTF-8 validity, as enforced by Rust's `String::from_utf8`
(shortest forms only, surrogates and values above U+10FFFF rejected). -/
def utf8Valid : Bytes → Bool
  | [] => true
  | b :: rest =>
    if b ≤ 127 then utf8Valid rest
    else if 194 ≤ b && b ≤ 223 then
      match rest with
      | c1 :: tail => isCont c1 && utf8Valid tail
      | _ => false
    else if b = 224 then
      match rest with
      | c1 :: c2 :: tail => (160 ≤ c1 && c1 ≤ 191) && isCont c2 && utf8Valid tail
      | _ => false
    else if (225 ≤ b && b ≤ 236) || 238 ≤ b && b ≤ 239 then
      match rest with
      | c1 :: c2 :: tail => isCont c1 && isCont c2 && utf8Valid tail
      | _ => false
    else if b = 237 then
      match rest with
      | c1 :: c2 :: tail => (128 ≤ c1 && c1 ≤ 159) && isCont c2 && utf8Valid tail
      | _ => false
    else if b = 240 then
      match rest with
      | c1 :: c2 :: c3 :: tail =>
        (144 ≤ c1 && c1 ≤ 191) && isCont c2 && isCont c3 && utf8Valid tail
      | _ => false
    else if 241 ≤ b && b ≤ 243 then
      match rest with
      | c1 :: c2 :: c3 :: tail => isCont c1 && isCont c2 && isCont c3 && utf8Valid tail
      | _ => false
    else if b = 244 then
      match rest with
      | c1 :: c2 :: c3 :: tail =>
        (128 ≤ c1 && c1 ≤ 143) && isCont c2 && isCont c3 && utf8Valid tail
      | _ => false
    else false

/-- Models `String::from_utf8`: Rust strings are modelled as their byte content, so
the conversion validates and returns the bytes unchanged. -/
def stringFromUtf8 (b : Bytes) : Except Error Bytes :=
  if utf8Valid b then .ok b else .error .utf8

/-- Models `fn read_chunk_to_string`. -/
def read_chunk_to_string (src : Src) : Except Error (Bytes × Src) :=
  match read_chunk src with
  | .error k => .error (.ioErr k)
  | .ok (buf, rest) =>
    match stringFromUtf8 buf with
    | .ok s => .ok (s, rest)
    | .error e => .error e

/-- Models `fn read_nonce`: 12 raw bytes. -/
def read_nonce (src : Src) : Except IoKind (Bytes × Src) := readExact 12 src

/-- Models `struct ScryptParams` (`salt: [u8; 16]`, `n: u8`, `r: u32`, `p: u32`). -/
structure ScryptParams where
  salt : Bytes
  n : Nat
  r : Nat
  p : Nat
  deriving DecidableEq, Repr

/-- The representation invariants of the Rust field types of `ScryptParams`
(`[u8; 16]`, `u8`, `u32`, `u32`; the bounds are `256 = 2^8` and
`4294967296 = 2^32`). -/
def ScryptParams.Wf (s : ScryptParams) : Prop :=
  s.salt.length = 16 ∧ s.n < 256 ∧ s.r < 4294967296 ∧ s.p < 4294967296

/-- Models `struct Password`: the key bytes of the `&str` and the scrypt parameters. -/
structure Password where
  key : Bytes
  params : ScryptParams
  deriving DecidableEq, Repr

/-- Models `ENCRYPT_NONE` / `ENCRYPT_AES_256_GCM` tags and `fn read_scrypt_option`. -/
def read_scrypt_option (src : Src) : Except Error (Option ScryptParams × Src) :=
  match readExact 1 src with
  | .error k => .error (.ioErr k)
  | .ok (buf, src1) =>
    if buf = [0] then .ok (none, src1)
    else if buf = [1] then
      match readExact 16 src1 with
      | .error k => .error (.ioErr k)
      | .ok (saltBuf, src2) =>
        match readExact 1 src2 with
        | .error k => .error (.ioErr k)
        | .ok (nBuf, src3) =>
          match readExact 4 src3 with
          | .error k => .error (.ioErr k)
          | .ok (rBuf, src4) =>
            match readExact 4 src4 with
            | .error k => .error (.ioErr k)
            | .ok (pBuf, src5) =>
              .ok (some ⟨saltBuf, u8OfBe nBuf, u32OfBe rBuf, u32OfBe pBuf⟩, src5)
    else .error .invalidEncryptMethod

/-- Models `fn write_scrypt_params`. -/
def write_scrypt_params : Option ScryptParams → Bytes
  | some s => [1] ++ s.salt ++ [s.n % 256] ++ toBe32 s.r ++ toBe32 s.p
  | none => [0]

/-- An AES-256-GCM instance, abstracting the `aes_gcm` crate: `encrypt` takes
a 12-byte nonce and a plaintext and yields ciphertext-with-tag; `decrypt`
yields `none` on tag verification failure. -/
structure Cipher where
  encrypt : Bytes → Bytes → Bytes
  decrypt : Bytes → Bytes → Option Bytes

/-- The properties of AES-256-GCM the round-trip theorems rely on:
decrypting with the encrypting nonce recovers the plaintext, and the
ciphertext is the plaintext plus the 16-byte authentication tag. -/
def Cipher.Ok (c : Cipher) : Prop :=
  (∀ nonce p, c.decrypt nonce (c.encrypt nonce p) = some p) ∧
  (∀ nonce p, (c.encrypt nonce p).length = p.length + 16)

/-- Models `fn read_encrypt_chunk`: `None` on an empty chunk, and — because the
`Err` arm of the `match` catches every `UnexpectedEof` from `read_chunk` —
also on end-of-stream anywhere inside the length or the body.  (In the
caught-EOF arm the Rust reader's position is unspecified and never used
again by any caller; the model returns the untouched source there.) -/
def read_encrypt_chunk (c : Cipher) (src : Src) : Except Error (Option Bytes × Src) :=
  match read_chunk src with
  | .ok (buf, src1) =>
    if buf.isEmpty then .ok (none, src1)
    else
      match read_nonce src1 with
      | .error k => .error (.ioErr k)
      | .ok (nonce, src2) =>
        match c.decrypt nonce buf with
        | some data => .ok (some data, src2)
        | none => .error .decryptionFailed
  | .error k =>
    if k = .unexpectedEof then .ok (none, src) else .error (.ioErr k)

/-- Models `fn write_encrypt_chunk`: an empty buffer is written as a bare empty
chunk with no nonce; otherwise a fresh nonce is drawn (`rng ctr`, advancing
the draw counter), the ciphertext framed as a chunk, and the nonce appended.
(`Aead::encrypt` cannot fail for 12-byte nonces, so the
`Error::EncryptionFailed` branch is unreachable and not modelled.) -/
def write_encrypt_chunk (c : Cipher) (rng : Nat → Bytes) (ctr : Nat) (buf : Bytes) :
    Except Error (Bytes × Nat) :=
  if buf.isEmpty then
    match write_chunk [] with
    | .error e => .error e
    | .ok out => .ok (out, ctr)
  else
    let nonce := rng ctr
    match write_chunk (c.encrypt nonce buf) with
    | .error e => .error e
    | .ok out => .ok (out ++ nonce, ctr + 1)

/-!
## Encoder (`struct Encode`)

The sink is a byte list; each operation returns the bytes it pushed to the
sink (even when it then fails) together with its result.  The cipher held in
`self.cipher` and the nonce draw counter are passed explicitly.
-/

/-- Models `Encode::new`: writes head, version, info chunk and encryption header,
then derives the cipher (`fn cipher`, abstracted as `kdf`).  Returns all
bytes handed to the sink — also when key derivation fails afterwards — and
the derived `Option<Aes256Gcm>`. -/
def Encode.new (kdf : Password → Option Cipher) (info : Bytes)
    (password : Option Password) : Bytes × Except Error (Option Cipher) :=
  let pre := write_head ++ write_version
  match write_chunk info with
  | .error e => (pre, .error e)
  | .ok infoChunk =>
    let out := pre ++ infoChunk ++ write_scrypt_params (password.map Password.params)
    match password with
    | some pw =>
      match kdf pw with
      | some c => (out, .ok (some c))
      | none => (out, .error .invalidScryptParams)
    | none => (out, .ok none)

/-- Models `Encode::write_directory`: the directory type tag, then the path as a
plain or encrypted chunk, then a flush (a no-op on a byte-list sink).
Returns the emitted bytes and, on success, the new nonce draw counter. -/
def write_directory (cipher : Option Cipher) (rng : Nat → Bytes) (ctr : Nat)
    (p : Bytes) : Bytes × Except Error Nat :=
  let tag := FileType.writeTag .directory
  match cipher with
  | some c =>
    match write_encrypt_chunk c rng ctr p with
    | .error e => (tag, .error e)
    | .ok (chunk, ctr1) => (tag ++ chunk, .ok ctr1)
  | none =>
    match write_chunk p with
    | .error e => (tag, .error e)
    | .ok chunk => (tag ++ chunk, .ok ctr)

/-- How the `loop` in `Encode::write_file` stops reading from the brotli
`CompressorReader`: a clean `Ok(0)`, an `Err` of kind `UnexpectedEof`, or an
`Err` of any other kind. -/
inductive CompEnd
  | done
  | eofErr
  | failErr
  deriving DecidableEq, Repr

/-- The observable behaviour of the external brotli `CompressorReader`
inside `Encode::write_file`: the successive `Ok(n)` read results with
`n > 0` (each the next `n` compressed bytes, `n ≤ buf_size`), followed by
the event that ends the loop.  The loop breaks at the first `Ok(0)` or
`Err`, so nothing after `ending` is observable. -/
structure CompStream where
  chunks : List Bytes
  ending : CompEnd
  deriving DecidableEq, Repr

/-- The plain-mode file-data loop of `Encode::write_file`: each read result
becomes one chunk (counting its bytes), then `Ok(0)` or a caught
`UnexpectedEof` writes the empty terminator chunk and any other read error
is returned as `Error::IO`. -/
def write_file_loop_plain : List Bytes → CompEnd → Nat → Bytes × Except Error Nat
  | [], ending, bytes =>
    match ending with
    | .failErr => ([], .error (.ioErr .otherErr))
    | _ =>
      match write_chunk [] with
      | .error e => ([], .error e)
      | .ok term => (term, .ok bytes)
  | c :: rest, ending, bytes =>
    match write_chunk c with
    | .error e => ([], .error e)
    | .ok out =>
      match write_file_loop_plain rest ending (bytes + c.length) with
      | (more, r) => (out ++ more, r)

/-- The encrypted-mode file-data loop of `Encode::write_file`. -/
def write_file_loop_enc (cip : Cipher) (rng : Nat → Bytes) :
    List Bytes → CompEnd → Nat → Nat → Bytes × Except Error (Nat × Nat)
  | [], ending, ctr, bytes =>
    match ending with
    | .failErr => ([], .error (.ioErr .otherErr))
    | _ =>
      match write_encrypt_chunk cip rng ctr [] with
      | .error e => ([], .error e)
      | .ok (term, ctr1) => (term, .ok (bytes, ctr1))
  | c :: rest, ending, ctr, bytes =>
    match write_encrypt_chunk cip rng ctr c with
    | .error e => ([], .error e)
    | .ok (out, ctr1) =>
      match write_file_loop_enc cip rng rest ending ctr1 (bytes + c.length) with
      | (more, r) => (out ++ more, r)

/-- Models `Encode::write_file`: file type tag, path chunk, then the compressed
data chunks and the terminator.  On success returns the accumulated byte
count (the sum of the compressor read sizes) and the new draw counter. -/
def write_file (cipher : Option Cipher) (rng : Nat → Bytes) (ctr : Nat)
    (p : Bytes) (cs : CompStream) : Bytes × Except Error (Nat × Nat) :=
  let tag := FileType.writeTag .file
  match cipher with
  | some c =>
    match write_encrypt_chunk c rng ctr p with
    | .error e => (tag, .error e)
    | .ok (pchunk, ctr1) =>
      match write_file_loop_enc c rng cs.chunks cs.ending ctr1 0 with
      | (body, r) => (tag ++ pchunk ++ body, r)
  | none =>
    match write_chunk p with
    | .error e => (tag, .error e)
    | .ok pchunk =>
      match write_file_loop_plain cs.chunks cs.ending 0 with
      | (body, .error e) => (tag ++ pchunk ++ body, .error e)
      | (body, .ok bytes) => (tag ++ pchunk ++ body, .ok (bytes, ctr))

/-!
## Decoder (`struct Decode`)
-/

/-- Models `struct Decode`: the derived cipher and the info string read from the
preamble.  (`buf_size` only sizes the external decompressor's buffer and
has no observable effect in the model.) -/
structure Decode where
  cipher : Option Cipher
  info : Bytes

/-- Models `Decode::new`: parses the preamble, applies the password validation
matrix, and derives the cipher from the parsed scrypt parameters.  The
auto-generated projection `Decode.info` models `pub fn info`. -/
def Decode.new (kdf : Password → Option Cipher) (src : Src)
    (password : Option Bytes) : Except Error (Decode × Src) :=
  match read_head src with
  | .error e => .error e
  | .ok src1 =>
    match read_version src1 with
    | .error e => .error e
    | .ok src2 =>
      match read_chunk_to_string src2 with
      | .error e => .error e
      | .ok (info, src3) =>
        match read_scrypt_option src3 with
        | .error e => .error e
        | .ok (params, src4) =>
          if params.isSome && password.isNone then .error .passwordRequired
          else if params.isNone && password.isSome then .error .noPasswordRequired
          else
            match password, params with
            | some key, some ps =>
              match kdf ⟨key, ps⟩ with
              | some c => .ok (⟨some c, info⟩, src4)
              | none => .error .invalidScryptParams
            | _, _ => .ok (⟨none, info⟩, src4)

/-- Models `Decode::read_path`: probes one byte for the type tag, treating
end-of-stream there as the end of the archive; then parses the tag and the
path chunk. -/
def Decode.read_path (d : Decode) (src : Src) :
    Except Error (Option (FileType × Bytes) × Src) :=
  match readByte src with
  | .error k =>
    if k = .unexpectedEof then .ok (none, src) else .error (.ioErr k)
  | .ok (b, src1) =>
    match FileType.parse b with
    | .error e => .error e
    | .ok ft =>
      match d.cipher with
      | some c =>
        match read_encrypt_chunk c src1 with
        | .error e => .error e
        | .ok (some buf, src2) =>
          match stringFromUtf8 buf with
          | .ok s => .ok (some (ft, s), src2)
          | .error e => .error e
        | .ok (none, _) => .error .filePath
      | none =>
        match read_chunk_to_string src1 with
        | .error e => .error e
        | .ok (s, src2) => .ok (some (ft, s), src2)

/-- The plain-mode loop of `Decode::read_file`: chunks until the empty
terminator, each handed to the external brotli decompressor (the model
collects them).  `fuel` bounds the iterations; every Rust iteration
consumes at least two source bytes, so any `fuel > src.length` behaves as
the unbounded loop and the out-of-fuel branch is unreachable then. -/
def readFileChunksPlain : Nat → Src → Except Error (List Bytes × Src)
  | 0, _ => .error (.ioErr .otherErr)
  | fuel + 1, src =>
    match read_chunk src with
    | .error k => .error (.ioErr k)
    | .ok (data, src1) =>
      if data.isEmpty then .ok ([], src1)
      else
        match readFileChunksPlain fuel src1 with
        | .error e => .error e
        | .ok (rest, srcEnd) => .ok (data :: rest, srcEnd)

/-- The encrypted-mode loop of `Decode::read_file`: decrypted chunks until
`read_encrypt_chunk` returns `None`. -/
def readFileChunksEnc (c : Cipher) : Nat → Src → Except Error (List Bytes × Src)
  | 0, _ => .error (.ioErr .otherErr)
  | fuel + 1, src =>
    match read_encrypt_chunk c src with
    | .error e => .error e
    | .ok (none, src1) => .ok ([], src1)
    | .ok (some data, src1) =>
      match readFileChunksEnc c fuel src1 with
      | .error e => .error e
      | .ok (rest, srcEnd) => .ok (data :: rest, srcEnd)

/-- Models `Decode::read_file`: reads this file's data chunks into the
decompressor and flushes it (a no-op in the model); returns the chunk
payloads handed to the decompressor and the remaining source. -/
def Decode.read_file (d : Decode) (fuel : Nat) (src : Src) :
    Except Error (List Bytes × Src) :=
  match d.cipher with
  | some c => readFileChunksEnc c fuel src
  | none => readFileChunksPlain fuel src

/-!
## Drivers

The canonical caller patterns from `main.rs`: `compress_file` calls
`write_directory` / `write_file` once per walked entry, and
`decompress_file` loops `read_path`, calling `read_file` after every file
entry, until `read_path` returns `None`.
-/

/-- One entry as the encoding caller supplies it: a path, and for files the
compressor behaviour for that file's source. -/
inductive EntrySpec
  | dir (p : Bytes)
  | file (p : Bytes) (cs : CompStream)

/-- The `(file_type, path)` pair an entry should decode back to. -/
def EntrySpec.summary : EntrySpec → FileType × Bytes
  | .dir p => (.directory, p)
  | .file p _ => (.file, p)

/-- Encode a sequence of entries in caller order, stopping at the first
failing write (threading the nonce draw counter). -/
def writeEntries (cipher : Option Cipher) (rng : Nat → Bytes) (ctr : Nat) :
    List EntrySpec → Bytes × Except Error Nat
  | [] => ([], .ok ctr)
  | .dir p :: es =>
    match write_directory cipher rng ctr p with
    | (out, .error e) => (out, .error e)
    | (out, .ok ctr1) =>
      match writeEntries cipher rng ctr1 es with
      | (out2, r) => (out ++ out2, r)
  | .file p cs :: es =>
    match write_file cipher rng ctr p cs with
    | (out, .error e) => (out, .error e)
    | (out, .ok (_, ctr1)) =>
      match writeEntries cipher rng ctr1 es with
      | (out2, r) => (out ++ out2, r)

/-- The decode loop of `main.rs::decompress_file`: pull `(type, path)`
pairs with `read_path` until `None`, consuming each file body with
`read_file` (whose fuel `src.length + 1` always exceeds its iteration
count).  The outer fuel bounds the number of entries. -/
def readEntries (d : Decode) : Nat → Src → Except Error (List (FileType × Bytes))
  | 0, _ => .error (.ioErr .otherErr)
  | fuel + 1, src =>
    match d.read_path src with
    | .error e => .error e
    | .ok (none, _) => .ok []
    | .ok (some (ft, p), src1) =>
      match ft with
      | .directory =>
        match readEntries d fuel src1 with
        | .error e => .error e
        | .ok rest => .ok ((FileType.directory, p) :: rest)
      | .file =>
        match d.read_file (src1.length + 1) src1 with
        | .error e => .error e
        | .ok (_, src2) =>
          match readEntries d fuel src2 with
          | .error e => .error e
          | .ok rest => .ok ((FileType.file, p) :: rest)

/-!
## Well-formedness conditions and concrete instances
-/

/-- The wire frame `write_chunk` produces for a writable buffer. -/
def chunkFrame (b : Bytes) : Bytes := toBe16 b.length ++ b

/-- The wire frame `write_encrypt_chunk` produces for a non-empty buffer. -/
def encFrame (c : Cipher) (nonce b : Bytes) : Bytes :=
  chunkFrame (c.encrypt nonce b) ++ nonce

/-- The largest buffer `write_chunk` (plain) or `write_encrypt_chunk`
(ciphertext = buffer + 16-byte tag) accepts in the given mode. -/
def chunkLimit : Option Cipher → Nat
  | some _ => 65519
  | none => 65535

/-- A path the given mode can write and decoding maps back to itself:
valid UTF-8, within the mode's chunk limit, and non-empty when encrypted
(an empty encrypted path is written in terminator form). -/
def PathOk (cipher : Option Cipher) (p : Bytes) : Prop :=
  utf8Valid p = true ∧ p.length ≤ chunkLimit cipher ∧ (cipher.isSome → p ≠ [])

/-- Compressor read results as they actually occur: each `Ok(n)` kept by the
loop has `0 < n ≤ buf_size`, and the default `buf_size` 8192 is within both
chunk limits.  `ending ≠ failErr` says the compressor did not fail. -/
def StreamOk (cipher : Option Cipher) (cs : CompStream) : Prop :=
  (∀ c ∈ cs.chunks, c ≠ [] ∧ c.length ≤ chunkLimit cipher) ∧ cs.ending ≠ .failErr

/-- Conditions under which an entry is written successfully and decodes back
to its summary. -/
def EntryOk (cipher : Option Cipher) : EntrySpec → Prop
  | .dir p => PathOk cipher p
  | .file p cs => PathOk cipher p ∧ StreamOk cipher cs

/-- Nonces drawn by `thread_rng().gen::<[u8; 12]>()` are 12 bytes long. -/
def RngOk (rng : Nat → Bytes) : Prop := ∀ i, (rng i).length = 12

/-- A cipher standing in for a concrete AES-256-GCM instance in witnesses:
the tag is 16 zero bytes and decryption strips it. -/
def toyCipher : Cipher where
  encrypt := fun _ p => p ++ List.replicate 16 0
  decrypt := fun _ c => if c.length < 16 then none else some (c.take (c.length - 16))

/-- A nonce supply for witnesses: every draw is 12 zero bytes. -/
def toyRng : Nat → Bytes := fun _ => List.replicate 12 0

/-- A key derivation standing in for `fn cipher` when scrypt accepts the
parameters. -/
def toyKdf : Password → Option Cipher := fun _ => some toyCipher

/-- A key derivation standing in for `fn cipher` when scrypt rejects the
parameters (`Error::InvalidScryptParams`). -/
def rejectKdf : Password → Option Cipher := fun _ => none

/-- Default scrypt parameters (`N = 15`, `r = 8`, `p = 1`) with a zero salt,
as a concrete instance for witnesses. -/
def toyParams : ScryptParams := ⟨List.replicate 16 0, 15, 8, 1⟩

/-- A concrete password (key `"k"`) with the toy parameters. -/
def toyPw : Password := ⟨[107], toyParams⟩

/-- The full preamble `Encode::new` writes: magic, version, info chunk,
encryption header. -/
def preamble (info : Bytes) (pw : Option Password) : Bytes :=
  write_head ++ write_version ++ chunkFrame info ++
    write_scrypt_params (pw.map Password.params)

/-- The plain wire form of a file body's data chunks (before the
terminator): one `write_chunk` frame per compressor read. -/
def framesP : List Bytes → Bytes
  | [] => []
  | c :: rest => chunkFrame c ++ framesP rest

/-- The encrypted wire form of a file body's data chunks, drawing one nonce
per chunk starting at draw counter `ctr`. -/
def framesE (c : Cipher) (rng : Nat → Bytes) : Nat → List Bytes → Bytes
  | _, [] => []
  | ctr, x :: rest => encFrame c (rng ctr) x ++ framesE c rng (ctr + 1) rest

/-- The total number of bytes `write_file` reads from the compressor: the
sum of the read sizes. -/
def totalLen : List Bytes → Nat
  | [] => 0
  | c :: rest => c.length + totalLen rest

/-!
## Theorems

First the basic reader/framing lemmas, then the per-claim results.
-/

theorem readExact_of_length (n : Nat) (b : Bytes) (r : Src) (h : b.length = n) :
    readExact n (ofBytes b ++ r) = .ok (b, r) := by
  induction b generalizing n with
  | nil => subst h; simp [readExact, ofBytes]
  | cons x xs ih =>
    subst h
    have ih1 := ih xs.length rfl
    simp only [ofBytes] at ih1
    simp only [ofBytes, List.map_cons, List.cons_append, List.length_cons, readExact,
      List.append_eq, ih1]

theorem readExact_self (b : Bytes) (r : Src) :
    readExact b.length (ofBytes b ++ r) = .ok (b, r) :=
  readExact_of_length b.length b r rfl

theorem readByte_cons (b : Byte) (r : Src) : readByte (ofBytes [b] ++ r) = .ok (b, r) := by
  simp [readByte, ofBytes]

theorem u16OfBe_toBe16 (v : Nat) (h : v ≤ 65535) : u16OfBe (toBe16 v) = v := by
  simp only [toBe16, u16OfBe]
  have hv : v % 65536 = v := Nat.mod_eq_of_lt (by omega)
  rw [hv]
  omega

theorem read_chunk_frame (b : Bytes) (r : Src) (h : b.length ≤ 65535) :
    read_chunk (ofBytes (chunkFrame b) ++ r) = .ok (b, r) := by
  have e1 : ofBytes (chunkFrame b) ++ r = ofBytes (toBe16 b.length) ++ (ofBytes b ++ r) := by
    simp [chunkFrame, ofBytes]
  rw [e1]
  simp only [read_chunk]
  rw [readExact_of_length 2 (toBe16 b.length) (ofBytes b ++ r) rfl]
  simp [u16OfBe_toBe16 b.length h, readExact_self]

theorem write_chunk_ok (b : Bytes) (h : b.length ≤ 65535) :
    write_chunk b = .ok (chunkFrame b) := by
  simp [write_chunk, chunkFrame, Nat.not_lt.mpr h]

theorem write_chunk_long (b : Bytes) (h : 65535 < b.length) :
    write_chunk b = .error .chunkTooLong := by
  simp [write_chunk, h]

theorem read_chunk_term (r : Src) : read_chunk (ofBytes [0, 0] ++ r) = .ok ([], r) := by
  have : ([] : Bytes).length ≤ 65535 := by simp
  simpa [chunkFrame, toBe16] using read_chunk_frame [] r this

theorem read_chunk_to_string_frame (b : Bytes) (r : Src) (hu : utf8Valid b = true)
    (h : b.length ≤ 65535) :
    read_chunk_to_string (ofBytes (chunkFrame b) ++ r) = .ok (b, r) := by
  simp [read_chunk_to_string, read_chunk_frame b r h, stringFromUtf8, hu]

theorem write_encrypt_chunk_empty (c : Cipher) (rng : Nat → Bytes) (ctr : Nat) :
    write_encrypt_chunk c rng ctr [] = .ok ([0, 0], ctr) := rfl

theorem write_encrypt_chunk_ok (c : Cipher) (rng : Nat → Bytes) (ctr : Nat) (b : Bytes)
    (hb : b ≠ []) (hl : (c.encrypt (rng ctr) b).length ≤ 65535) :
    write_encrypt_chunk c rng ctr b = .ok (encFrame c (rng ctr) b, ctr + 1) := by
  cases b with
  | nil => exact absurd rfl hb
  | cons x xs => simp [write_encrypt_chunk, write_chunk_ok _ hl, encFrame]

theorem read_encrypt_chunk_frame (c : Cipher) (nonce b : Bytes) (r : Src)
    (hOk : c.Ok) (hl : (c.encrypt nonce b).length ≤ 65535)
    (hn : nonce.length = 12) :
    read_encrypt_chunk c (ofBytes (encFrame c nonce b) ++ r) = .ok (some b, r) := by
  have e1 : ofBytes (encFrame c nonce b) ++ r =
      ofBytes (chunkFrame (c.encrypt nonce b)) ++ (ofBytes nonce ++ r) := by
    simp [encFrame, ofBytes]
  have hne : (c.encrypt nonce b).isEmpty = false := by
    have hlen := hOk.2 nonce b
    cases hcc : c.encrypt nonce b with
    | nil => rw [hcc] at hlen; simp at hlen
    | cons y ys => rfl
  rw [e1]
  simp only [read_encrypt_chunk]
  rw [read_chunk_frame _ _ hl]
  simp [hne, read_nonce, readExact_of_length 12 nonce r hn, hOk.1 nonce b]

theorem read_encrypt_chunk_term (c : Cipher) (r : Src) :
    read_encrypt_chunk c (ofBytes [0, 0] ++ r) = .ok (none, r) := by
  simp only [read_encrypt_chunk]
  rw [read_chunk_term]
  simp

theorem u32OfBe_toBe32 (v : Nat) (h : v < 4294967296) : u32OfBe (toBe32 v) = v := by
  simp only [toBe32, u32OfBe]
  have hv : v % 4294967296 = v := Nat.mod_eq_of_lt h
  rw [hv]
  omega

theorem read_scrypt_none (r : Src) :
    read_scrypt_option (ofBytes (write_scrypt_params none) ++ r) = .ok (none, r) := by
  simp [write_scrypt_params, read_scrypt_option, ofBytes, readExact]

theorem read_scrypt_some (s : ScryptParams) (hwf : s.Wf) (r : Src) :
    read_scrypt_option (ofBytes (write_scrypt_params (some s)) ++ r) = .ok (some s, r) := by
  obtain ⟨hs, hn, hr, hp⟩ := hwf
  have e1 : ofBytes (write_scrypt_params (some s)) ++ r =
      ofBytes [1] ++ (ofBytes s.salt ++ (ofBytes [s.n % 256] ++
        (ofBytes (toBe32 s.r) ++ (ofBytes (toBe32 s.p) ++ r)))) := by
    simp [write_scrypt_params, ofBytes]
  rw [e1]
  simp only [read_scrypt_option]
  rw [readExact_of_length 1 [1] _ rfl]
  simp only [List.cons.injEq, and_true]
  rw [readExact_of_length 16 s.salt _ hs]
  simp only []
  rw [readExact_of_length 1 [s.n % 256] _ rfl]
  simp only []
  rw [readExact_of_length 4 (toBe32 s.r) _ rfl]
  simp only []
  rw [readExact_of_length 4 (toBe32 s.p) _ rfl]
  simp [u8OfBe, u32OfBe_toBe32 s.r hr, u32OfBe_toBe32 s.p hp, Nat.mod_eq_of_lt hn]

theorem encode_new_none (kdf : Password → Option Cipher) (info : Bytes)
    (h : info.length ≤ 65535) :
    Encode.new kdf info none = (preamble info none, .ok none) := by
  simp [Encode.new, write_chunk_ok info h, preamble]

theorem encode_new_some (kdf : Password → Option Cipher) (info : Bytes) (q : Password)
    (c : Cipher) (h : info.length ≤ 65535) (hq : kdf q = some c) :
    Encode.new kdf info (some q) = (preamble info (some q), .ok (some c)) := by
  simp [Encode.new, write_chunk_ok info h, hq, preamble]

theorem encode_new_kdf_fail (kdf : Password → Option Cipher) (info : Bytes) (q : Password)
    (h : info.length ≤ 65535) (hq : kdf q = none) :
    Encode.new kdf info (some q) = (preamble info (some q), .error .invalidScryptParams) := by
  simp [Encode.new, write_chunk_ok info h, hq, preamble]

theorem read_head_ok (r : Src) : read_head (ofBytes HEAD ++ r) = .ok r := by
  simp [read_head, readExact_of_length 3 HEAD r rfl]

theorem read_version_ok (r : Src) : read_version (ofBytes VERSION ++ r) = .ok r := by
  simp [read_version, readExact_of_length 1 VERSION r rfl]

theorem decode_new_plain (kdf : Password → Option Cipher) (info : Bytes) (rest : Src)
    (hu : utf8Valid info = true) (hil : info.length ≤ 65535) :
    Decode.new kdf (ofBytes (preamble info none) ++ rest) none =
      .ok (⟨none, info⟩, rest) := by
  have e1 : ofBytes (preamble info none) ++ rest =
      ofBytes HEAD ++ (ofBytes VERSION ++ (ofBytes (chunkFrame info) ++
        (ofBytes (write_scrypt_params none) ++ rest))) := by
    simp [preamble, ofBytes, write_head, write_version]
  rw [e1]
  simp only [Decode.new]
  simp [read_head_ok, read_version_ok, read_chunk_to_string_frame, read_scrypt_none,
    hu, hil]

theorem decode_new_enc (kdf : Password → Option Cipher) (info : Bytes) (q : Password)
    (c : Cipher) (rest : Src) (hu : utf8Valid info = true) (hil : info.length ≤ 65535)
    (hwf : q.params.Wf) (hq : kdf q = some c) :
    Decode.new kdf (ofBytes (preamble info (some q)) ++ rest) (some q.key) =
      .ok (⟨some c, info⟩, rest) := by
  have e1 : ofBytes (preamble info (some q)) ++ rest =
      ofBytes HEAD ++ (ofBytes VERSION ++ (ofBytes (chunkFrame info) ++
        (ofBytes (write_scrypt_params (some q.params)) ++ rest))) := by
    simp [preamble, ofBytes, write_head, write_version]
  rw [e1]
  simp only [Decode.new]
  simp only [read_head_ok, read_version_ok, read_chunk_to_string_frame, read_scrypt_some,
    hu, hil, hwf]
  have hqe : (⟨q.key, q.params⟩ : Password) = q := rfl
  simp [hqe, hq]

theorem ofBytes_nil : ofBytes [] = [] := rfl

theorem ofBytes_cons (x : Byte) (l : Bytes) : ofBytes (x :: l) = some x :: ofBytes l := rfl

theorem ofBytes_append (a b : Bytes) : ofBytes (a ++ b) = ofBytes a ++ ofBytes b := by
  simp [ofBytes]

theorem ofBytes_length (a : Bytes) : (ofBytes a).length = a.length := by
  simp [ofBytes]

theorem write_directory_plain (rng : Nat → Bytes) (ctr : Nat) (p : Bytes)
    (h : p.length ≤ 65535) :
    write_directory none rng ctr p = ([0] ++ chunkFrame p, .ok ctr) := by
  simp [write_directory, write_chunk_ok p h, FileType.writeTag]

theorem write_directory_enc (c : Cipher) (rng : Nat → Bytes) (ctr : Nat) (p : Bytes)
    (hlen : ∀ nonce q, (c.encrypt nonce q).length = q.length + 16)
    (hp : p ≠ []) (h : p.length ≤ 65519) :
    write_directory (some c) rng ctr p = ([0] ++ encFrame c (rng ctr) p, .ok (ctr + 1)) := by
  have hl : (c.encrypt (rng ctr) p).length ≤ 65535 := by rw [hlen]; omega
  simp [write_directory, write_encrypt_chunk_ok c rng ctr p hp hl, FileType.writeTag]

theorem read_path_plain (info : Bytes) (t : FileType) (p : Bytes) (r : Src)
    (hu : utf8Valid p = true) (h : p.length ≤ 65535) :
    Decode.read_path ⟨none, info⟩ (ofBytes (t.writeTag ++ chunkFrame p) ++ r) =
      .ok (some (t, p), r) := by
  cases t <;>
    simp [Decode.read_path, FileType.writeTag, ofBytes_cons, ofBytes_append,
      List.cons_append, readByte, FileType.parse, read_chunk_to_string_frame, hu, h]

theorem read_path_enc (info : Bytes) (c : Cipher) (t : FileType) (nonce p : Bytes)
    (r : Src) (hOk : c.Ok) (hl : (c.encrypt nonce p).length ≤ 65535)
    (hn : nonce.length = 12) (hu : utf8Valid p = true) :
    Decode.read_path ⟨some c, info⟩ (ofBytes (t.writeTag ++ encFrame c nonce p) ++ r) =
      .ok (some (t, p), r) := by
  cases t <;>
    simp [Decode.read_path, FileType.writeTag, ofBytes_cons, ofBytes_append,
      List.cons_append, readByte, FileType.parse,
      read_encrypt_chunk_frame c nonce p r hOk hl hn, stringFromUtf8, hu]

theorem read_path_end (d : Decode) : d.read_path [] = .ok (none, []) := by
  simp [Decode.read_path, readByte]

theorem write_file_loop_plain_ok (chunks : List Bytes) (ending : CompEnd)
    (hend : ending ≠ .failErr) (hch : ∀ x ∈ chunks, x.length ≤ 65535) :
    ∀ acc, write_file_loop_plain chunks ending acc =
      (framesP chunks ++ [0, 0], .ok (acc + totalLen chunks)) := by
  induction chunks with
  | nil =>
    intro acc
    cases ending with
    | failErr => exact absurd rfl hend
    | done => simp [write_file_loop_plain, write_chunk, toBe16, framesP, totalLen]
    | eofErr => simp [write_file_loop_plain, write_chunk, toBe16, framesP, totalLen]
  | cons x xs ih =>
    intro acc
    simp only [write_file_loop_plain, write_chunk_ok x (hch x (by simp))]
    rw [ih (fun y hy => hch y (by simp [hy])) (acc + x.length)]
    simp [framesP, totalLen, List.append_assoc]
    omega

theorem write_file_loop_plain_fail (chunks : List Bytes)
    (hch : ∀ x ∈ chunks, x.length ≤ 65535) :
    ∀ acc, write_file_loop_plain chunks .failErr acc =
      (framesP chunks, .error (.ioErr .otherErr)) := by
  induction chunks with
  | nil => intro acc; simp [write_file_loop_plain, framesP]
  | cons x xs ih =>
    intro acc
    simp only [write_file_loop_plain, write_chunk_ok x (hch x (by simp))]
    rw [ih (fun y hy => hch y (by simp [hy])) (acc + x.length)]
    simp [framesP]

theorem write_file_loop_enc_ok (c : Cipher) (rng : Nat → Bytes)
    (hlen : ∀ nonce p, (c.encrypt nonce p).length = p.length + 16)
    (chunks : List Bytes) (ending : CompEnd) (hend : ending ≠ .failErr)
    (hch : ∀ x ∈ chunks, x ≠ [] ∧ x.length ≤ 65519) :
    ∀ ctr acc, write_file_loop_enc c rng chunks ending ctr acc =
      (framesE c rng ctr chunks ++ [0, 0],
        .ok (acc + totalLen chunks, ctr + chunks.length)) := by
  induction chunks with
  | nil =>
    intro ctr acc
    cases ending with
    | failErr => exact absurd rfl hend
    | done => simp [write_file_loop_enc, write_encrypt_chunk_empty, framesE, totalLen]
    | eofErr => simp [write_file_loop_enc, write_encrypt_chunk_empty, framesE, totalLen]
  | cons x xs ih =>
    intro ctr acc
    have hx := hch x (by simp)
    have hl : (c.encrypt (rng ctr) x).length ≤ 65535 := by rw [hlen]; omega
    simp only [write_file_loop_enc, write_encrypt_chunk_ok c rng ctr x hx.1 hl]
    rw [ih (fun y hy => hch y (by simp [hy])) (ctr + 1) (acc + x.length)]
    simp [framesE, totalLen, List.append_assoc]
    omega

theorem write_file_loop_enc_fail (c : Cipher) (rng : Nat → Bytes)
    (hlen : ∀ nonce p, (c.encrypt nonce p).length = p.length + 16)
    (chunks : List Bytes) (hch : ∀ x ∈ chunks, x ≠ [] ∧ x.length ≤ 65519) :
    ∀ ctr acc, write_file_loop_enc c rng chunks .failErr ctr acc =
      (framesE c rng ctr chunks, .error (.ioErr .otherErr)) := by
  induction chunks with
  | nil => intro ctr acc; simp [write_file_loop_enc, framesE]
  | cons x xs ih =>
    intro ctr acc
    have hx := hch x (by simp)
    have hl : (c.encrypt (rng ctr) x).length ≤ 65535 := by rw [hlen]; omega
    simp only [write_file_loop_enc, write_encrypt_chunk_ok c rng ctr x hx.1 hl]
    rw [ih (fun y hy => hch y (by simp [hy])) (ctr + 1) (acc + x.length)]
    simp [framesE]

theorem write_file_plain_ok (rng : Nat → Bytes) (ctr : Nat) (p : Bytes) (cs : CompStream)
    (hp : p.length ≤ 65535) (hch : ∀ x ∈ cs.chunks, x.length ≤ 65535)
    (hend : cs.ending ≠ .failErr) :
    write_file none rng ctr p cs =
      ([1] ++ chunkFrame p ++ (framesP cs.chunks ++ [0, 0]),
        .ok (totalLen cs.chunks, ctr)) := by
  simp only [write_file, write_chunk_ok p hp, FileType.writeTag,
    write_file_loop_plain_ok cs.chunks cs.ending hend hch 0]
  simp

theorem write_file_enc_ok (c : Cipher) (rng : Nat → Bytes) (ctr : Nat) (p : Bytes)
    (cs : CompStream) (hlen : ∀ nonce q, (c.encrypt nonce q).length = q.length + 16)
    (hp : p ≠ []) (hpl : p.length ≤ 65519)
    (hch : ∀ x ∈ cs.chunks, x ≠ [] ∧ x.length ≤ 65519) (hend : cs.ending ≠ .failErr) :
    write_file (some c) rng ctr p cs =
      ([1] ++ encFrame c (rng ctr) p ++ (framesE c rng (ctr + 1) cs.chunks ++ [0, 0]),
        .ok (totalLen cs.chunks, ctr + 1 + cs.chunks.length)) := by
  have hl : (c.encrypt (rng ctr) p).length ≤ 65535 := by rw [hlen]; omega
  simp only [write_file, write_encrypt_chunk_ok c rng ctr p hp hl, FileType.writeTag,
    write_file_loop_enc_ok c rng hlen cs.chunks cs.ending hend hch (ctr + 1) 0]
  simp

theorem framesP_length_ge (chunks : List Bytes) :
    chunks.length ≤ (framesP chunks).length := by
  induction chunks with
  | nil => simp [framesP]
  | cons x xs ih => simp [framesP, chunkFrame, toBe16]; omega

theorem framesE_length_ge (c : Cipher) (rng : Nat → Bytes) (chunks : List Bytes) :
    ∀ ctr, chunks.length ≤ (framesE c rng ctr chunks).length := by
  induction chunks with
  | nil => intro ctr; simp [framesE]
  | cons x xs ih =>
    intro ctr
    have := ih (ctr + 1)
    simp [framesE, encFrame, chunkFrame, toBe16]
    omega

theorem readFileChunksPlain_frames (chunks : List Bytes) :
    ∀ (fuel : Nat) (r : Src), chunks.length < fuel →
      (∀ x ∈ chunks, x ≠ [] ∧ x.length ≤ 65535) →
      readFileChunksPlain fuel (ofBytes (framesP chunks ++ [0, 0]) ++ r) =
        .ok (chunks, r) := by
  induction chunks with
  | nil =>
    intro fuel r hf _
    obtain ⟨f, rfl⟩ : ∃ f, fuel = f + 1 := ⟨fuel - 1, by omega⟩
    simp [readFileChunksPlain, framesP, read_chunk_term]
  | cons x xs ih =>
    intro fuel r hf hch
    obtain ⟨f, rfl⟩ : ∃ f, fuel = f + 1 := ⟨fuel - 1, by omega⟩
    have e1 : ofBytes (framesP (x :: xs) ++ [0, 0]) ++ r =
        ofBytes (chunkFrame x) ++ (ofBytes (framesP xs ++ [0, 0]) ++ r) := by
      simp [framesP, ofBytes_append, List.append_assoc]
    have hx := hch x (by simp)
    have hxe : x.isEmpty = false := by
      cases x with
      | nil => exact absurd rfl hx.1
      | cons y ys => rfl
    rw [e1]
    simp only [readFileChunksPlain]
    have e2 : read_chunk (ofBytes (chunkFrame x) ++ (ofBytes (framesP xs ++ [0, 0]) ++ r)) =
        .ok (x, ofBytes (framesP xs ++ [0, 0]) ++ r) := read_chunk_frame x _ hx.2
    rw [e2]
    simp only [hxe]
    rw [ih f r (by simp at hf ⊢; omega) (fun y hy => hch y (by simp [hy]))]
    simp

theorem readFileChunksEnc_frames (c : Cipher) (rng : Nat → Bytes) (hOk : c.Ok)
    (hrng : RngOk rng) (chunks : List Bytes) :
    ∀ (fuel ctr : Nat) (r : Src), chunks.length < fuel →
      (∀ x ∈ chunks, x ≠ [] ∧ x.length ≤ 65519) →
      readFileChunksEnc c fuel (ofBytes (framesE c rng ctr chunks ++ [0, 0]) ++ r) =
        .ok (chunks, r) := by
  induction chunks with
  | nil =>
    intro fuel ctr r hf _
    obtain ⟨f, rfl⟩ : ∃ f, fuel = f + 1 := ⟨fuel - 1, by omega⟩
    simp [readFileChunksEnc, framesE, read_encrypt_chunk_term]
  | cons x xs ih =>
    intro fuel ctr r hf hch
    obtain ⟨f, rfl⟩ : ∃ f, fuel = f + 1 := ⟨fuel - 1, by omega⟩
    have e1 : ofBytes (framesE c rng ctr (x :: xs) ++ [0, 0]) ++ r =
        ofBytes (encFrame c (rng ctr) x) ++ (ofBytes (framesE c rng (ctr + 1) xs ++ [0, 0]) ++ r) := by
      simp [framesE, ofBytes_append, List.append_assoc]
    have hx := hch x (by simp)
    have hl : (c.encrypt (rng ctr) x).length ≤ 65535 := by rw [hOk.2]; omega
    rw [e1]
    simp only [readFileChunksEnc]
    rw [read_encrypt_chunk_frame c (rng ctr) x _ hOk hl (hrng ctr)]
    dsimp only
    rw [ih f (ctr + 1) r (by simp at hf ⊢; omega) (fun y hy => hch y (by simp [hy]))]

theorem read_path_plain_dir (info p : Bytes) (r : Src) (hu : utf8Valid p = true)
    (h : p.length ≤ 65535) :
    Decode.read_path ⟨none, info⟩ (ofBytes ([0] ++ chunkFrame p) ++ r) =
      .ok (some (.directory, p), r) := by
  simpa [FileType.writeTag] using read_path_plain info .directory p r hu h

theorem read_path_plain_file (info p : Bytes) (r : Src) (hu : utf8Valid p = true)
    (h : p.length ≤ 65535) :
    Decode.read_path ⟨none, info⟩ (ofBytes ([1] ++ chunkFrame p) ++ r) =
      .ok (some (.file, p), r) := by
  simpa [FileType.writeTag] using read_path_plain info .file p r hu h

theorem read_path_enc_dir (info : Bytes) (c : Cipher) (nonce p : Bytes) (r : Src)
    (hOk : c.Ok) (hl : (c.encrypt nonce p).length ≤ 65535) (hn : nonce.length = 12)
    (hu : utf8Valid p = true) :
    Decode.read_path ⟨some c, info⟩ (ofBytes ([0] ++ encFrame c nonce p) ++ r) =
      .ok (some (.directory, p), r) := by
  simpa [FileType.writeTag] using read_path_enc info c .directory nonce p r hOk hl hn hu

theorem read_path_enc_file (info : Bytes) (c : Cipher) (nonce p : Bytes) (r : Src)
    (hOk : c.Ok) (hl : (c.encrypt nonce p).length ≤ 65535) (hn : nonce.length = 12)
    (hu : utf8Valid p = true) :
    Decode.read_path ⟨some c, info⟩ (ofBytes ([1] ++ encFrame c nonce p) ++ r) =
      .ok (some (.file, p), r) := by
  simpa [FileType.writeTag] using read_path_enc info c .file nonce p r hOk hl hn hu

/-- The cipher-side assumptions of the round-trip results: nothing for a
plain archive, `Cipher.Ok` for an encrypted one. -/
def ModeOk : Option Cipher → Prop
  | some c => c.Ok
  | none => True

theorem dir_roundtrip (copt : Option Cipher) (rng : Nat → Bytes) (info : Bytes)
    (ctr : Nat) (p : Bytes) (hpath : PathOk copt p) (hrng : RngOk rng)
    (hcip : ModeOk copt) :
    ∃ out ctr1, write_directory copt rng ctr p = (out, .ok ctr1) ∧
      ∀ r : Src, Decode.read_path ⟨copt, info⟩ (ofBytes out ++ r) =
        .ok (some (.directory, p), r) := by
  obtain ⟨hu, hlim, hne⟩ := hpath
  cases copt with
  | none =>
    exact ⟨[0] ++ chunkFrame p, ctr, write_directory_plain rng ctr p hlim,
      fun r => read_path_plain_dir info p r hu hlim⟩
  | some c =>
    have hp : p ≠ [] := hne (by simp)
    have hl : (c.encrypt (rng ctr) p).length ≤ 65535 := by
      rw [hcip.2]; simp [chunkLimit] at hlim; omega
    exact ⟨[0] ++ encFrame c (rng ctr) p, ctr + 1,
      write_directory_enc c rng ctr p hcip.2 hp hlim,
      fun r => read_path_enc_dir info c (rng ctr) p r hcip hl (hrng ctr) hu⟩

theorem file_roundtrip (copt : Option Cipher) (rng : Nat → Bytes) (info : Bytes)
    (ctr : Nat) (p : Bytes) (cs : CompStream) (hpath : PathOk copt p)
    (hstream : StreamOk copt cs) (hrng : RngOk rng) (hcip : ModeOk copt) :
    ∃ out body ctr1 n, write_file copt rng ctr p cs = (out, .ok (n, ctr1)) ∧
      cs.chunks.length ≤ body.length ∧
      (∀ r : Src, Decode.read_path ⟨copt, info⟩ (ofBytes out ++ r) =
        .ok (some (.file, p), ofBytes body ++ r)) ∧
      (∀ (r : Src) (fuel : Nat), cs.chunks.length < fuel →
        Decode.read_file ⟨copt, info⟩ fuel (ofBytes body ++ r) = .ok (cs.chunks, r)) := by
  obtain ⟨hu, hlim, hne⟩ := hpath
  obtain ⟨hch, hend⟩ := hstream
  cases copt with
  | none =>
    refine ⟨[1] ++ chunkFrame p ++ (framesP cs.chunks ++ [0, 0]),
      framesP cs.chunks ++ [0, 0], ctr, totalLen cs.chunks,
      write_file_plain_ok rng ctr p cs hlim (fun x hx => (hch x hx).2) hend, ?_, ?_, ?_⟩
    · have := framesP_length_ge cs.chunks
      simp only [List.length_append]
      omega
    · intro r
      have e1 : ofBytes ([1] ++ chunkFrame p ++ (framesP cs.chunks ++ [0, 0])) ++ r =
          ofBytes ([1] ++ chunkFrame p) ++ (ofBytes (framesP cs.chunks ++ [0, 0]) ++ r) := by
        simp [ofBytes_cons, ofBytes_append, List.append_assoc]
      rw [e1, read_path_plain_file info p _ hu hlim]
    · intro r fuel hf
      simp only [Decode.read_file]
      exact readFileChunksPlain_frames cs.chunks fuel r hf hch
  | some c =>
    have hco : c.Ok := hcip
    have hp : p ≠ [] := hne (by simp)
    refine ⟨[1] ++ encFrame c (rng ctr) p ++ (framesE c rng (ctr + 1) cs.chunks ++ [0, 0]),
      framesE c rng (ctr + 1) cs.chunks ++ [0, 0], ctr + 1 + cs.chunks.length,
      totalLen cs.chunks,
      write_file_enc_ok c rng ctr p cs hco.2 hp hlim hch hend, ?_, ?_, ?_⟩
    · have := framesE_length_ge c rng cs.chunks (ctr + 1)
      simp only [List.length_append]
      omega
    · intro r
      have hl : (c.encrypt (rng ctr) p).length ≤ 65535 := by
        rw [hco.2]
        have : p.length ≤ 65519 := hlim
        omega
      have e1 : ofBytes ([1] ++ encFrame c (rng ctr) p ++
            (framesE c rng (ctr + 1) cs.chunks ++ [0, 0])) ++ r =
          ofBytes ([1] ++ encFrame c (rng ctr) p) ++
            (ofBytes (framesE c rng (ctr + 1) cs.chunks ++ [0, 0]) ++ r) := by
        simp [ofBytes_cons, ofBytes_append, List.append_assoc]
      rw [e1, read_path_enc_file info c (rng ctr) p _ hco hl (hrng ctr) hu]
    · intro r fuel hf
      simp only [Decode.read_file]
      exact readFileChunksEnc_frames c rng hco hrng cs.chunks fuel (ctr + 1) r hf hch

theorem readEntries_succ (d : Decode) (fuel : Nat) (src : Src) :
    readEntries d (fuel + 1) src =
      match d.read_path src with
      | .error e => .error e
      | .ok (none, _) => .ok []
      | .ok (some (ft, p), src1) =>
        match ft with
        | .directory =>
          match readEntries d fuel src1 with
          | .error e => .error e
          | .ok rest => .ok ((FileType.directory, p) :: rest)
        | .file =>
          match d.read_file (src1.length + 1) src1 with
          | .error e => .error e
          | .ok (_, src2) =>
            match readEntries d fuel src2 with
            | .error e => .error e
            | .ok rest => .ok ((FileType.file, p) :: rest) := rfl

theorem readEntries_writeEntries (copt : Option Cipher) (rng : Nat → Bytes)
    (info : Bytes) (hrng : RngOk rng) (hcip : ModeOk copt) :
    ∀ es : List EntrySpec, (∀ e ∈ es, EntryOk copt e) → ∀ ctr : Nat,
      ∃ out ctr2, writeEntries copt rng ctr es = (out, .ok ctr2) ∧
        readEntries ⟨copt, info⟩ (es.length + 1) (ofBytes out) =
          .ok (es.map EntrySpec.summary) := by
  intro es
  induction es with
  | nil =>
    intro _ ctr
    refine ⟨[], ctr, rfl, ?_⟩
    simp [readEntries, ofBytes_nil, read_path_end]
  | cons e es ih =>
    intro hes ctr
    have he : EntryOk copt e := hes e (by simp)
    have hes1 : ∀ x ∈ es, EntryOk copt x := fun x hx => hes x (by simp [hx])
    cases e with
    | dir p =>
      obtain ⟨out1, ctr1, hw1, hr1⟩ := dir_roundtrip copt rng info ctr p he hrng hcip
      obtain ⟨out2, ctr2, hw2, hr2⟩ := ih hes1 ctr1
      refine ⟨out1 ++ out2, ctr2, ?_, ?_⟩
      · simp [writeEntries, hw1, hw2]
      · simp only [List.length_cons]
        rw [readEntries_succ, ofBytes_append, hr1 (ofBytes out2)]
        dsimp only
        rw [hr2]
        simp [EntrySpec.summary]
    | file p cs =>
      obtain ⟨hpath, hstream⟩ := he
      obtain ⟨out1, body, ctr1, n, hw1, hlen, hrp, hrf⟩ :=
        file_roundtrip copt rng info ctr p cs hpath hstream hrng hcip
      obtain ⟨out2, ctr2, hw2, hr2⟩ := ih hes1 ctr1
      refine ⟨out1 ++ out2, ctr2, ?_, ?_⟩
      · simp [writeEntries, hw1, hw2]
      · simp only [List.length_cons]
        rw [readEntries_succ, ofBytes_append, hrp (ofBytes out2)]
        dsimp only
        have hfuel : cs.chunks.length < (ofBytes body ++ ofBytes out2).length + 1 := by
          have h1 := hlen
          simp only [List.length_append, ofBytes_length]
          omega
        rw [hrf (ofBytes out2) _ hfuel]
        dsimp only
        rw [hr2]
        simp [EntrySpec.summary]

theorem toyCipher_ok : toyCipher.Ok := by
  constructor
  · intro nonce p
    simp [toyCipher, List.take_left]
  · intro nonce p
    simp [toyCipher]

theorem toyParams_wf : toyParams.Wf := by
  refine ⟨by simp [toyParams], by norm_num [toyParams], by norm_num [toyParams],
    by norm_num [toyParams]⟩

theorem readExact_short (n : Nat) (b : Bytes) (h : b.length < n) :
    readExact n (ofBytes b) = .error .unexpectedEof := by
  induction b generalizing n with
  | nil =>
    obtain ⟨m, rfl⟩ : ∃ m, n = m + 1 := ⟨n - 1, by omega⟩
    rfl
  | cons x xs ih =>
    obtain ⟨m, rfl⟩ : ∃ m, n = m + 1 := ⟨n - 1, by omega⟩
    simp only [ofBytes, List.map_cons, readExact]
    have := ih m (by simp at h; omega)
    simp only [ofBytes] at this
    rw [this]

theorem write_encrypt_chunk_long (c : Cipher) (rng : Nat → Bytes) (ctr : Nat) (p : Bytes)
    (hp : p ≠ []) (h : 65535 < (c.encrypt (rng ctr) p).length) :
    write_encrypt_chunk c rng ctr p = .error .chunkTooLong := by
  cases p with
  | nil => exact absurd rfl hp
  | cons x xs => simp [write_encrypt_chunk, write_chunk_long _ h]

theorem write_file_plain_fail_rst (rng : Nat → Bytes) (ctr : Nat) (p : Bytes)
    (chunks : List Bytes) (hp : p.length ≤ 65535) (hch : ∀ x ∈ chunks, x.length ≤ 65535) :
    (write_file none rng ctr p ⟨chunks, .failErr⟩).2 = .error (.ioErr .otherErr) := by
  simp [write_file, write_chunk_ok p hp, write_file_loop_plain_fail chunks hch 0]

theorem write_file_enc_fail_rst (c : Cipher) (rng : Nat → Bytes) (ctr : Nat) (p : Bytes)
    (chunks : List Bytes) (hlen : ∀ nonce q, (c.encrypt nonce q).length = q.length + 16)
    (hp : p ≠ []) (hpl : p.length ≤ 65519)
    (hch : ∀ x ∈ chunks, x ≠ [] ∧ x.length ≤ 65519) :
    (write_file (some c) rng ctr p ⟨chunks, .failErr⟩).2 = .error (.ioErr .otherErr) := by
  have hl : (c.encrypt (rng ctr) p).length ≤ 65535 := by rw [hlen]; omega
  simp [write_file, write_encrypt_chunk_ok c rng ctr p hp hl,
    write_file_loop_enc_fail c rng hlen chunks hch (ctr + 1) 0]

theorem u32OfBe_toBe32_mod (v : Nat) : u32OfBe (toBe32 v) = v % 4294967296 := by
  simp only [toBe32, u32OfBe]
  omega

theorem read_scrypt_some_raw (s : ScryptParams) (hs : s.salt.length = 16) (r : Src) :
    read_scrypt_option (ofBytes (write_scrypt_params (some s)) ++ r) =
      .ok (some ⟨s.salt, s.n % 256, s.r % 4294967296, s.p % 4294967296⟩, r) := by
  have e1 : ofBytes (write_scrypt_params (some s)) ++ r =
      ofBytes [1] ++ (ofBytes s.salt ++ (ofBytes [s.n % 256] ++
        (ofBytes (toBe32 s.r) ++ (ofBytes (toBe32 s.p) ++ r)))) := by
    simp [write_scrypt_params, ofBytes]
  rw [e1]
  simp only [read_scrypt_option]
  rw [readExact_of_length 1 [1] _ rfl]
  simp only [List.cons.injEq, and_true]
  rw [readExact_of_length 16 s.salt _ hs]
  simp only []
  rw [readExact_of_length 1 [s.n % 256] _ rfl]
  simp only []
  rw [readExact_of_length 4 (toBe32 s.r) _ rfl]
  simp only []
  rw [readExact_of_length 4 (toBe32 s.p) _ rfl]
  simp [u8OfBe, u32OfBe_toBe32_mod]

theorem encode_new_ok_info_le (kdf : Password → Option Cipher) (info : Bytes)
    (pw : Option Password) (out : Bytes) (copt : Option Cipher)
    (h : Encode.new kdf info pw = (out, .ok copt)) : info.length ≤ 65535 := by
  by_contra hlt
  push_neg at hlt
  have h2 : Encode.new kdf info pw = (write_head ++ write_version, .error .chunkTooLong) := by
    simp [Encode.new, write_chunk_long info hlt]
  rw [h] at h2
  rw [Prod.mk.injEq] at h2
  exact absurd h2.2 (by simp)

theorem decode_new_password_required (kdf : Password → Option Cipher) (info : Bytes)
    (q : Password) (rest : Src) (hu : utf8Valid info = true) (hil : info.length ≤ 65535)
    (hsalt : q.params.salt.length = 16) :
    Decode.new kdf (ofBytes (preamble info (some q)) ++ rest) none =
      .error .passwordRequired := by
  have e1 : ofBytes (preamble info (some q)) ++ rest =
      ofBytes HEAD ++ (ofBytes VERSION ++ (ofBytes (chunkFrame info) ++
        (ofBytes (write_scrypt_params (some q.params)) ++ rest))) := by
    simp [preamble, ofBytes, write_head, write_version]
  rw [e1]
  simp only [Decode.new]
  simp [read_head_ok, read_version_ok, read_chunk_to_string_frame,
    read_scrypt_some_raw q.params hsalt, hu, hil]

theorem decode_new_no_password_required (kdf : Password → Option Cipher) (info : Bytes)
    (key : Bytes) (rest : Src) (hu : utf8Valid info = true) (hil : info.length ≤ 65535) :
    Decode.new kdf (ofBytes (preamble info none) ++ rest) (some key) =
      .error .noPasswordRequired := by
  have e1 : ofBytes (preamble info none) ++ rest =
      ofBytes HEAD ++ (ofBytes VERSION ++ (ofBytes (chunkFrame info) ++
        (ofBytes (write_scrypt_params none) ++ rest))) := by
    simp [preamble, ofBytes, write_head, write_version]
  rw [e1]
  simp only [Decode.new]
  simp [read_head_ok, read_version_ok, read_chunk_to_string_frame, read_scrypt_none,
    hu, hil]

/-!
## Per-claim results
-/

/-- C6: constructing an encoder with info `""` and no password, then writing
no entries, produces exactly the byte stream `6D 65 69 01 00 00 00`;
decoding that stream yields `info() = ""` and the first `read_path()`
returns `None`. -/
theorem claim_C6 :
    (∀ kdf, Encode.new kdf [] none =
      ([0x6D, 0x65, 0x69, 0x01, 0x00, 0x00, 0x00], .ok none)) ∧
    (∀ kdf, Decode.new kdf (ofBytes [0x6D, 0x65, 0x69, 0x01, 0x00, 0x00, 0x00]) none =
      .ok (⟨none, []⟩, [])) ∧
    Decode.read_path ⟨none, []⟩ [] = .ok (none, []) :=
  ⟨fun _ => rfl, fun _ => rfl, rfl⟩

/-- C10: `Encode::new` is not atomic on key-derivation failure: when the
scrypt parameters of the password are rejected it returns
`InvalidScryptParams`, but the sink has already received the complete
preamble — magic, version, info chunk, and the encryption header holding
the rejected parameters — because the preamble is written before the
cipher is derived. -/
theorem claim_C10 (kdf : Password → Option Cipher) (info : Bytes) (q : Password)
    (hil : info.length ≤ 65535) (hrej : kdf q = none) :
    Encode.new kdf info (some q) =
      (write_head ++ write_version ++ chunkFrame info ++
        write_scrypt_params (some q.params), .error .invalidScryptParams) := by
  simpa [preamble] using encode_new_kdf_fail kdf info q hil hrej

theorem claim_C10_witness :
    List.length ([] : Bytes) ≤ 65535 ∧ rejectKdf toyPw = none ∧
    Encode.new rejectKdf [] (some toyPw) =
      (write_head ++ write_version ++ chunkFrame [] ++
        write_scrypt_params (some toyPw.params), .error .invalidScryptParams) :=
  ⟨by decide, rfl, claim_C10 rejectKdf [] toyPw (by decide) rfl⟩

/-- C9: with a cipher present, writing a non-empty path longer than 65519
bytes fails with `ChunkTooLong` — both in `write_directory` and in the path
write of `write_file` — because the AES-256-GCM ciphertext is the plaintext
plus a 16-byte tag and must fit the 65535-byte chunk limit; paths of up to
65519 bytes are accepted, so the effective encrypted path limit is 65519. -/
theorem claim_C9 (c : Cipher) (rng : Nat → Bytes) (ctr : Nat) (p : Bytes)
    (hlen : ∀ nonce q, (c.encrypt nonce q).length = q.length + 16)
    (hp : p ≠ []) (hlong : 65519 < p.length) :
    (write_directory (some c) rng ctr p).2 = .error .chunkTooLong ∧
    (∀ cs : CompStream, (write_file (some c) rng ctr p cs).2 = .error .chunkTooLong) ∧
    (∀ q : Bytes, q.length ≤ 65519 →
      ∃ ctr1, (write_directory (some c) rng ctr q).2 = .ok ctr1) := by
  have hbig : 65535 < (c.encrypt (rng ctr) p).length := by rw [hlen]; omega
  have hwec := write_encrypt_chunk_long c rng ctr p hp hbig
  refine ⟨?_, ?_, ?_⟩
  · simp [write_directory, hwec]
  · intro cs
    simp [write_file, hwec]
  · intro q hq
    by_cases hqe : q = []
    · subst hqe
      exact ⟨ctr, by simp [write_directory, write_encrypt_chunk_empty]⟩
    · have hql : (c.encrypt (rng ctr) q).length ≤ 65535 := by rw [hlen]; omega
      exact ⟨ctr + 1, by simp [write_directory, write_encrypt_chunk_ok c rng ctr q hqe hql]⟩

theorem claim_C9_witness :
    (∀ nonce q, (toyCipher.encrypt nonce q).length = q.length + 16) ∧
    List.replicate 65520 97 ≠ ([] : Bytes) ∧
    65519 < (List.replicate 65520 97).length ∧
    (write_directory (some toyCipher) toyRng 0 (List.replicate 65520 97)).2 =
      .error .chunkTooLong := by
  have hne : List.replicate 65520 97 ≠ ([] : Bytes) := by
    intro h
    have h2 := congrArg List.length h
    rw [List.length_replicate, List.length_nil] at h2
    omega
  have hlong : 65519 < (List.replicate 65520 97).length := by
    rw [List.length_replicate]
    omega
  exact ⟨toyCipher_ok.2, hne, hlong,
    (claim_C9 toyCipher toyRng 0 (List.replicate 65520 97) toyCipher_ok.2 hne hlong).1⟩

/-- C1 (amended): `write_file` returns the total number of **compressed**
bytes it read from the brotli compressor — the sum of the data-chunk
payload sizes — not the number of uncompressed bytes of the caller's
source. -/
theorem claim_C1 :
    (∀ (rng : Nat → Bytes) (ctr : Nat) (p : Bytes) (cs : CompStream),
      p.length ≤ 65535 → (∀ x ∈ cs.chunks, x.length ≤ 65535) → cs.ending ≠ .failErr →
      (write_file none rng ctr p cs).2 = .ok (totalLen cs.chunks, ctr)) ∧
    (∀ (c : Cipher) (rng : Nat → Bytes) (ctr : Nat) (p : Bytes) (cs : CompStream),
      (∀ nonce q, (c.encrypt nonce q).length = q.length + 16) → p ≠ [] →
      p.length ≤ 65519 →
      (∀ x ∈ cs.chunks, x ≠ [] ∧ x.length ≤ 65519) → cs.ending ≠ .failErr →
      (write_file (some c) rng ctr p cs).2 =
        .ok (totalLen cs.chunks, ctr + 1 + cs.chunks.length)) := by
  constructor
  · intro rng ctr p cs hp hch hend
    rw [write_file_plain_ok rng ctr p cs hp hch hend]
  · intro c rng ctr p cs hc hp hpl hch hend
    rw [write_file_enc_ok c rng ctr p cs hc hp hpl hch hend]

theorem claim_C1_witness :
    List.length [102] ≤ 65535 ∧
    (∀ x ∈ [[59]], List.length x ≤ 65535) ∧
    (CompStream.mk [[59]] .done).ending ≠ .failErr ∧
    (write_file none toyRng 0 [102] ⟨[[59]], .done⟩).2 = .ok (totalLen [[59]], 0) :=
  ⟨by decide, by decide, by decide,
    claim_C1.1 toyRng 0 [102] ⟨[[59]], .done⟩ (by decide) (by decide) (by decide)⟩

/-- C1 counterexample: a `write_file` call whose compressor trace contains a
single 1-byte compressed chunk (as brotli produces for a highly compressible
source such as 100000 zero bytes) returns 1, not the uncompressed source
length 100000 — the returned count is independent of the uncompressed size. -/
theorem claim_C1_counterexample :
    (write_file none (fun _ => []) 0 [102] ⟨[[59]], .done⟩).2 = .ok (1, 0) ∧
    (1 : Nat) ≠ 100000 :=
  ⟨rfl, by decide⟩

/-- C4 (amended): `read_encrypt_chunk` returns `None` when the next chunk is
the zero-length terminator or when `UnexpectedEof` is raised anywhere while
reading the 2-byte length or the chunk body — including truncation after
part of the length or part of the body — because the error arm catches every
`UnexpectedEof` from `read_chunk`.  A non-EOF I/O fault is `Error::IO`, and
end-of-stream while reading the 12-byte nonce after a complete chunk is
`Error::IO(UnexpectedEof)`, not `None`. -/
theorem claim_C4 :
    (∀ (c : Cipher) (b : Bytes), b.length < 2 →
      read_encrypt_chunk c (ofBytes b) = .ok (none, ofBytes b)) ∧
    (∀ (c : Cipher) (r : Src),
      read_encrypt_chunk c (ofBytes [0, 0] ++ r) = .ok (none, r)) ∧
    (∀ (c : Cipher) (hi lo : Byte) (body : Bytes), body.length < hi * 256 + lo →
      read_encrypt_chunk c (ofBytes ([hi, lo] ++ body)) =
        .ok (none, ofBytes ([hi, lo] ++ body))) ∧
    (∀ (c : Cipher) (src : Src),
      read_encrypt_chunk c (none :: src) = .error (.ioErr .otherErr)) ∧
    (∀ (c : Cipher) (hi lo : Byte) (body : Bytes), body.length = hi * 256 + lo →
      0 < body.length →
      read_encrypt_chunk c (ofBytes ([hi, lo] ++ body)) =
        .error (.ioErr .unexpectedEof)) := by
  refine ⟨?_, ?_, ?_, ?_, ?_⟩
  · intro c b hb
    cases b with
    | nil => rfl
    | cons x t =>
      cases t with
      | nil => rfl
      | cons y tt =>
        rw [List.length_cons, List.length_cons] at hb
        exact absurd hb (by omega)
  · intro c r
    exact read_encrypt_chunk_term c r
  · intro c hi lo body h
    have hrc : read_chunk (ofBytes (hi :: lo :: body)) = .error .unexpectedEof := by
      have e0 : ofBytes (hi :: lo :: body) = ofBytes [hi, lo] ++ ofBytes body := by
        simp [ofBytes]
      rw [e0]
      simp only [read_chunk]
      rw [readExact_of_length 2 [hi, lo] _ rfl]
      dsimp only
      have hu : u16OfBe [hi, lo] = hi * 256 + lo := rfl
      rw [hu, readExact_short (hi * 256 + lo) body h]
    simp [read_encrypt_chunk, hrc]
  · intro c src
    rfl
  · intro c hi lo body hlen hpos
    have hrc : read_chunk (ofBytes (hi :: lo :: body)) = .ok (body, []) := by
      have e0 : ofBytes (hi :: lo :: body) = ofBytes [hi, lo] ++ ofBytes body := by
        simp [ofBytes]
      rw [e0]
      simp only [read_chunk]
      rw [readExact_of_length 2 [hi, lo] _ rfl]
      dsimp only
      have hu : u16OfBe [hi, lo] = body.length := by
        have h2 : u16OfBe [hi, lo] = hi * 256 + lo := rfl
        omega
      rw [hu]
      simpa using readExact_of_length body.length body [] rfl
    have hne : body.isEmpty = false := by
      cases body with
      | nil => simp at hpos
      | cons x t => rfl
    simp [read_encrypt_chunk, hrc, hne, read_nonce, readExact]

theorem claim_C4_witness :
    (List.length [0] < 2 ∧
      read_encrypt_chunk toyCipher (ofBytes [0]) = .ok (none, ofBytes [0])) ∧
    read_encrypt_chunk toyCipher (ofBytes [0, 0] ++ []) = .ok (none, []) ∧
    (List.length [7] < 0 * 256 + 9 ∧
      read_encrypt_chunk toyCipher (ofBytes ([0, 9] ++ [7])) =
        .ok (none, ofBytes ([0, 9] ++ [7]))) ∧
    read_encrypt_chunk toyCipher (none :: []) = .error (.ioErr .otherErr) ∧
    (List.length [7] = 0 * 256 + 1 ∧
      read_encrypt_chunk toyCipher (ofBytes ([0, 1] ++ [7])) =
        .error (.ioErr .unexpectedEof)) :=
  ⟨⟨by decide, claim_C4.1 toyCipher [0] (by decide)⟩,
    claim_C4.2.1 toyCipher [],
    ⟨by decide, claim_C4.2.2.1 toyCipher 0 9 [7] (by decide)⟩,
    claim_C4.2.2.2.1 toyCipher [],
    ⟨by decide, claim_C4.2.2.2.2 toyCipher 0 1 [7] (by decide) (by decide)⟩⟩

/-- C4 counterexample: the claim says end-of-stream after part of the 2-byte
length, or inside the chunk body, is an error; the code returns `Ok(None)`
in both situations. -/
theorem claim_C4_counterexample :
    read_encrypt_chunk toyCipher (ofBytes [0]) = .ok (none, ofBytes [0]) ∧
    read_encrypt_chunk toyCipher (ofBytes [0, 5, 1, 2]) = .ok (none, ofBytes [0, 5, 1, 2]) :=
  ⟨rfl, rfl⟩

theorem toyRng_ok : RngOk toyRng := by
  intro i
  simp [toyRng]

/-- C3: for every UTF-8 info string of at most 65535 bytes, if constructing
the encoder succeeded then constructing a decoder over the produced bytes
with the matching password succeeds, and its `info()` equals the original
string. -/
theorem claim_C3 (kdf : Password → Option Cipher) (info : Bytes) (pw : Option Password)
    (out : Bytes) (copt : Option Cipher)
    (hu : utf8Valid info = true) (hil : info.length ≤ 65535)
    (hwf : ∀ q, pw = some q → q.params.Wf)
    (henc : Encode.new kdf info pw = (out, .ok copt)) :
    ∃ d rest, Decode.new kdf (ofBytes out) (pw.map Password.key) = .ok (d, rest) ∧
      d.info = info := by
  cases pw with
  | none =>
    have h2 := encode_new_none kdf info hil
    rw [henc] at h2
    rw [Prod.mk.injEq] at h2
    obtain ⟨h3, h4⟩ := h2
    subst h3
    refine ⟨⟨none, info⟩, [], ?_, rfl⟩
    simpa using decode_new_plain kdf info [] hu hil
  | some q =>
    cases hk : kdf q with
    | none =>
      have h2 := encode_new_kdf_fail kdf info q hil hk
      rw [henc] at h2
      rw [Prod.mk.injEq] at h2
      simp at h2
    | some c =>
      have h2 := encode_new_some kdf info q c hil hk
      rw [henc] at h2
      rw [Prod.mk.injEq] at h2
      obtain ⟨h3, h4⟩ := h2
      subst h3
      refine ⟨⟨some c, info⟩, [], ?_, rfl⟩
      simpa using decode_new_enc kdf info q c [] hu hil (hwf q rfl) hk

theorem claim_C3_witness :
    utf8Valid [104] = true ∧ List.length [104] ≤ 65535 ∧
    (∀ q, some toyPw = some q → q.params.Wf) ∧
    ∃ d rest, Decode.new toyKdf (ofBytes (preamble [104] (some toyPw))) (some [107]) =
      .ok (d, rest) ∧ d.info = [104] := by
  have hwf : ∀ q, some toyPw = some q → q.params.Wf := by
    intro q hq
    cases hq
    exact toyParams_wf
  have henc : Encode.new toyKdf [104] (some toyPw) =
      (preamble [104] (some toyPw), .ok (some toyCipher)) := rfl
  refine ⟨by decide, by decide, hwf, ?_⟩
  have h := claim_C3 toyKdf [104] (some toyPw) (preamble [104] (some toyPw))
    (some toyCipher) (by decide) (by decide) hwf henc
  simpa [toyPw] using h

/-- C5: an archive produced with encryption decoded with password `None`
fails with `PasswordRequired`, and an archive produced without encryption
decoded with any password fails with `NoPasswordRequired`; in both cases the
error is returned before any key derivation, so the result holds for every
decoder-side KDF (no cipher is derived). -/
theorem claim_C5 :
    (∀ (kdf kdf2 : Password → Option Cipher) (info : Bytes) (q : Password)
        (out : Bytes) (copt : Option Cipher) (rest : Src),
      utf8Valid info = true → q.params.salt.length = 16 →
      Encode.new kdf info (some q) = (out, .ok copt) →
      Decode.new kdf2 (ofBytes out ++ rest) none = .error .passwordRequired) ∧
    (∀ (kdf kdf2 : Password → Option Cipher) (info : Bytes) (key : Bytes)
        (out : Bytes) (copt : Option Cipher) (rest : Src),
      utf8Valid info = true →
      Encode.new kdf info none = (out, .ok copt) →
      Decode.new kdf2 (ofBytes out ++ rest) (some key) = .error .noPasswordRequired) := by
  constructor
  · intro kdf kdf2 info q out copt rest hu hsalt henc
    have hil := encode_new_ok_info_le kdf info (some q) out copt henc
    cases hk : kdf q with
    | none =>
      have h2 := encode_new_kdf_fail kdf info q hil hk
      rw [henc] at h2
      rw [Prod.mk.injEq] at h2
      simp at h2
    | some c =>
      have h2 := encode_new_some kdf info q c hil hk
      rw [henc] at h2
      rw [Prod.mk.injEq] at h2
      obtain ⟨h3, h4⟩ := h2
      subst h3
      exact decode_new_password_required kdf2 info q rest hu hil hsalt
  · intro kdf kdf2 info key out copt rest hu henc
    have hil := encode_new_ok_info_le kdf info none out copt henc
    have h2 := encode_new_none kdf info hil
    rw [henc] at h2
    rw [Prod.mk.injEq] at h2
    obtain ⟨h3, h4⟩ := h2
    subst h3
    exact decode_new_no_password_required kdf2 info key rest hu hil

theorem claim_C5_witness :
    (utf8Valid [] = true ∧ toyPw.params.salt.length = 16 ∧
      Decode.new rejectKdf (ofBytes (preamble [] (some toyPw)) ++ []) none =
        .error .passwordRequired) ∧
    (Decode.new rejectKdf (ofBytes (preamble [] none) ++ []) (some [107]) =
      .error .noPasswordRequired) := by
  have hsalt : toyPw.params.salt.length = 16 := by decide
  exact ⟨⟨rfl, hsalt,
      claim_C5.1 toyKdf rejectKdf [] toyPw (preamble [] (some toyPw)) (some toyCipher)
        [] rfl hsalt rfl⟩,
    claim_C5.2 toyKdf rejectKdf [] [107] (preamble [] none) none [] rfl rfl⟩

/-- C8: inside `write_file`, an `UnexpectedEof` from the compressor read is
not propagated: the empty terminator chunk is emitted, the sink flushed, and
`Ok` returned with the byte count accumulated so far (identical to a clean
`Ok(0)` end); a read error of any other kind is returned as `Error::IO`.
Both with and without a cipher. -/
theorem claim_C8 :
    (∀ (rng : Nat → Bytes) (ctr : Nat) (p : Bytes) (chunks : List Bytes),
      p.length ≤ 65535 → (∀ x ∈ chunks, x.length ≤ 65535) →
      write_file none rng ctr p ⟨chunks, .eofErr⟩ =
        ([1] ++ chunkFrame p ++ (framesP chunks ++ [0, 0]),
          .ok (totalLen chunks, ctr))) ∧
    (∀ (rng : Nat → Bytes) (ctr : Nat) (p : Bytes) (chunks : List Bytes),
      p.length ≤ 65535 → (∀ x ∈ chunks, x.length ≤ 65535) →
      (write_file none rng ctr p ⟨chunks, .failErr⟩).2 = .error (.ioErr .otherErr)) ∧
    (∀ (c : Cipher) (rng : Nat → Bytes) (ctr : Nat) (p : Bytes) (chunks : List Bytes),
      (∀ nonce q, (c.encrypt nonce q).length = q.length + 16) → p ≠ [] →
      p.length ≤ 65519 → (∀ x ∈ chunks, x ≠ [] ∧ x.length ≤ 65519) →
      write_file (some c) rng ctr p ⟨chunks, .eofErr⟩ =
        ([1] ++ encFrame c (rng ctr) p ++ (framesE c rng (ctr + 1) chunks ++ [0, 0]),
          .ok (totalLen chunks, ctr + 1 + chunks.length))) ∧
    (∀ (c : Cipher) (rng : Nat → Bytes) (ctr : Nat) (p : Bytes) (chunks : List Bytes),
      (∀ nonce q, (c.encrypt nonce q).length = q.length + 16) → p ≠ [] →
      p.length ≤ 65519 → (∀ x ∈ chunks, x ≠ [] ∧ x.length ≤ 65519) →
      (write_file (some c) rng ctr p ⟨chunks, .failErr⟩).2 =
        .error (.ioErr .otherErr)) := by
  refine ⟨?_, ?_, ?_, ?_⟩
  · intro rng ctr p chunks hp hch
    exact write_file_plain_ok rng ctr p ⟨chunks, .eofErr⟩ hp hch (by simp)
  · intro rng ctr p chunks hp hch
    exact write_file_plain_fail_rst rng ctr p chunks hp hch
  · intro c rng ctr p chunks hlen hp hpl hch
    exact write_file_enc_ok c rng ctr p ⟨chunks, .eofErr⟩ hlen hp hpl hch (by simp)
  · intro c rng ctr p chunks hlen hp hpl hch
    exact write_file_enc_fail_rst c rng ctr p chunks hlen hp hpl hch

theorem claim_C8_witness :
    (write_file none toyRng 0 [102] ⟨[[59]], .eofErr⟩ =
      ([1] ++ chunkFrame [102] ++ (framesP [[59]] ++ [0, 0]), .ok (totalLen [[59]], 0))) ∧
    ((write_file none toyRng 0 [102] ⟨[[59]], .failErr⟩).2 =
      .error (.ioErr .otherErr)) ∧
    (write_file (some toyCipher) toyRng 0 [102] ⟨[[59]], .eofErr⟩ =
      ([1] ++ encFrame toyCipher (toyRng 0) [102] ++
        (framesE toyCipher toyRng 1 [[59]] ++ [0, 0]), .ok (totalLen [[59]], 2))) ∧
    ((write_file (some toyCipher) toyRng 0 [102] ⟨[[59]], .failErr⟩).2 =
      .error (.ioErr .otherErr)) :=
  ⟨claim_C8.1 toyRng 0 [102] [[59]] (by decide) (by decide),
    claim_C8.2.1 toyRng 0 [102] [[59]] (by decide) (by decide),
    claim_C8.2.2.1 toyCipher toyRng 0 [102] [[59]] toyCipher_ok.2 (by decide) (by decide)
      (by decide),
    claim_C8.2.2.2 toyCipher toyRng 0 [102] [[59]] toyCipher_ok.2 (by decide) (by decide)
      (by decide)⟩

/-- C2 (amended): a sequence of entries written through `write_directory`
and `write_file` decodes — with the matching password — back to the same
`(file_type, path)` pairs in order, followed by `None`, provided every path
is valid UTF-8 within the mode's chunk limit and, when encryption is on,
non-empty (an empty encrypted path is emitted in terminator form and
decoding fails with `FilePath`; encrypted paths above 65519 bytes fail to
encode at all). -/
theorem claim_C2 (kdf : Password → Option Cipher) (rng : Nat → Bytes) (info : Bytes)
    (pw : Option Password) (es : List EntrySpec) (out1 : Bytes) (copt : Option Cipher)
    (hu : utf8Valid info = true) (hrng : RngOk rng)
    (hwf : ∀ q, pw = some q → q.params.Wf)
    (henc : Encode.new kdf info pw = (out1, .ok copt))
    (hcip : ModeOk copt)
    (hes : ∀ e ∈ es, EntryOk copt e) :
    ∃ out2 ctr2, writeEntries copt rng 0 es = (out2, .ok ctr2) ∧
      Decode.new kdf (ofBytes (out1 ++ out2)) (pw.map Password.key) =
        .ok (⟨copt, info⟩, ofBytes out2) ∧
      readEntries ⟨copt, info⟩ (es.length + 1) (ofBytes out2) =
        .ok (es.map EntrySpec.summary) := by
  have hil := encode_new_ok_info_le kdf info pw out1 copt henc
  obtain ⟨out2, ctr2, hw, hr⟩ := readEntries_writeEntries copt rng info hrng hcip es hes 0
  refine ⟨out2, ctr2, hw, ?_, hr⟩
  cases pw with
  | none =>
    have h2 := encode_new_none kdf info hil
    rw [henc] at h2
    rw [Prod.mk.injEq] at h2
    obtain ⟨h3, h4⟩ := h2
    subst h3
    have h5 : copt = none := by simpa using h4
    subst h5
    rw [ofBytes_append]
    exact decode_new_plain kdf info (ofBytes out2) hu hil
  | some q =>
    cases hk : kdf q with
    | none =>
      have h2 := encode_new_kdf_fail kdf info q hil hk
      rw [henc] at h2
      rw [Prod.mk.injEq] at h2
      simp at h2
    | some c =>
      have h2 := encode_new_some kdf info q c hil hk
      rw [henc] at h2
      rw [Prod.mk.injEq] at h2
      obtain ⟨h3, h4⟩ := h2
      subst h3
      have h5 : copt = some c := by simpa using h4
      subst h5
      rw [ofBytes_append]
      exact decode_new_enc kdf info q c (ofBytes out2) hu hil (hwf q rfl) hk

theorem claim_C2_witness :
    utf8Valid [105] = true ∧ RngOk toyRng ∧ ModeOk (some toyCipher) ∧
    (∀ e ∈ [EntrySpec.dir [100], EntrySpec.file [102] ⟨[[59]], .done⟩],
      EntryOk (some toyCipher) e) ∧
    ∃ out2 ctr2,
      writeEntries (some toyCipher) toyRng 0
          [EntrySpec.dir [100], EntrySpec.file [102] ⟨[[59]], .done⟩] =
        (out2, .ok ctr2) ∧
      Decode.new toyKdf (ofBytes (preamble [105] (some toyPw) ++ out2)) (some [107]) =
        .ok (⟨some toyCipher, [105]⟩, ofBytes out2) ∧
      readEntries ⟨some toyCipher, [105]⟩ 3 (ofBytes out2) =
        .ok [(FileType.directory, [100]), (FileType.file, [102])] := by
  have hwf : ∀ q, some toyPw = some q → q.params.Wf := by
    intro q hq
    cases hq
    exact toyParams_wf
  have hes : ∀ e ∈ [EntrySpec.dir [100], EntrySpec.file [102] ⟨[[59]], .done⟩],
      EntryOk (some toyCipher) e := by
    intro e he
    simp only [List.mem_cons, List.not_mem_nil, or_false] at he
    rcases he with rfl | rfl
    · exact ⟨by decide, by decide, fun _ => by decide⟩
    · refine ⟨⟨by decide, by decide, fun _ => by decide⟩, ?_, by decide⟩
      intro x hx
      simp only [List.mem_singleton] at hx
      subst hx
      exact ⟨by decide, by decide⟩
  have henc : Encode.new toyKdf [105] (some toyPw) =
      (preamble [105] (some toyPw), .ok (some toyCipher)) := rfl
  have h := claim_C2 toyKdf toyRng [105] (some toyPw)
    [EntrySpec.dir [100], EntrySpec.file [102] ⟨[[59]], .done⟩]
    (preamble [105] (some toyPw)) (some toyCipher) rfl toyRng_ok hwf henc toyCipher_ok hes
  refine ⟨rfl, toyRng_ok, toyCipher_ok, hes, ?_⟩
  simpa [toyPw, EntrySpec.summary] using h

/-- C2 counterexample: with encryption on, an empty directory path `""` is
written successfully (in terminator form: type byte then a bare empty
chunk), but decoding the resulting archive fails with `Error::FilePath`
instead of yielding `(Directory, "")` — so the round-trip does not hold for
every UTF-8 path of at most 65535 bytes. -/
theorem claim_C2_counterexample :
    (write_directory (some toyCipher) toyRng 0 []).2 = .ok 0 ∧
    Encode.new toyKdf [] (some toyPw) = (preamble [] (some toyPw), .ok (some toyCipher)) ∧
    Decode.new toyKdf (ofBytes (preamble [] (some toyPw) ++ [0, 0, 0])) (some [107]) =
      .ok (⟨some toyCipher, []⟩, ofBytes [0, 0, 0]) ∧
    Decode.read_path ⟨some toyCipher, []⟩ (ofBytes [0, 0, 0]) = .error .filePath :=
  ⟨rfl, rfl, rfl, rfl⟩

end Mei
